import Mathlib

/-!
# Debounced search-form submitter (`staticfiles/js/index.js`)

A shallow embedding of the thirteen-line browser script and of the part of the
host platform it talks to (element lookup, expando properties, the timer queue),
followed by theorems about its observable behaviour.

Time is a natural number of milliseconds.  The host is idealised in two ways that
the specification also assumes: a timer fires at exactly its due time, and
`searchForm.submit()` is recorded as an effect that leaves the page (and so the
script's state) alive.
-/

namespace DebouncedSubmitter

/-! ## Host platform -/

/-- A scheduled, not yet fired, not cancelled timer: its handle and its due time. -/
structure Timer where
  id : Nat
  due : Nat
deriving DecidableEq, Repr

/-- One invocation of `searchForm.submit()`: the time of the call, and (as a ghost
field) the handle of the timer whose callback made it. -/
structure Submission where
  timer : Nat
  time : Nat
deriving DecidableEq, Repr

/-- The host's timer queue together with the log of observable effects. -/
structure Env where
  nextId : Nat
  timers : List Timer
  submissions : List Submission
deriving DecidableEq, Repr

/-- A DOM element, reduced to its expando properties holding timer handles. -/
structure Element where
  props : List (String × Nat)
deriving DecidableEq, Repr

/-- Reading `this.k`: `none` stands for `undefined`. -/
def Element.getProp (e : Element) (k : String) : Option Nat :=
  e.props.lookup k

/-- The assignment `this.k = v`. -/
def Element.setProp (e : Element) (k : String) (v : Nat) : Element :=
  ⟨(k, v) :: e.props.filter (fun kv => kv.1 != k)⟩

/-- The page's markup: the ids of the elements it contains. -/
structure Document where
  ids : List String
deriving DecidableEq, Repr

/-- The lookup `document.getElementById(id)`: `none` stands for `null`. -/
def getElementById (doc : Document) (id : String) : Option String :=
  if id ∈ doc.ids then some id else none

/-- The only error the script could meet: a method call on `null`. -/
inductive JsError where
  | typeError
deriving DecidableEq, Repr

/-- The call `clearTimeout(h)`: removes the timer with that handle from the queue; a
handle that is `undefined`, already fired or already cancelled removes nothing. -/
def clearTimeout (h : Option Nat) (e : Env) : Env :=
  match h with
  | none => e
  | some i => { e with timers := e.timers.filter (fun tm => tm.id != i) }

/-- The call `setTimeout(cb, delay)` made at time `now`: returns a fresh handle and
queues a timer due at `now + delay`. -/
def setTimeout (now delay : Nat) (e : Env) : Nat × Env :=
  (e.nextId,
    { e with nextId := e.nextId + 1, timers := e.timers ++ [⟨e.nextId, now + delay⟩] })

/-! ## The script -/

/-- Run-time state of the page: the host environment, the `searchInput` element and
whether the script's `input` listener is registered on it. -/
structure Page where
  env : Env
  input : Element
  listening : Bool
deriving DecidableEq, Repr

/-- The page before any script has run. -/
def Page.fresh : Page :=
  { env := { nextId := 1, timers := [], submissions := [] }, input := ⟨[]⟩, listening := false }

/-- The arrow function of lines 8-10, `() => { searchForm.submit(); }`, run by the
host when timer `tm` expires. -/
def timerCallback (tm : Timer) (e : Env) : Env :=
  { e with submissions := e.submissions ++ [⟨tm.id, tm.due⟩] }

/-- The `input` listener of lines 6-11, called at time `now` with `this` bound to
the `searchInput` element. -/
def inputListener (now : Nat) (p : Page) : Page :=
  let env1 := clearTimeout (p.input.getProp "delay") p.env
  let r := setTimeout now 500 env1
  { p with env := r.2, input := p.input.setProp "delay" r.1 }

/-- The call `target.addEventListener("input", ...)`; on `null` it throws. -/
def addInputListener (target : Option String) (p : Page) : Except JsError Page :=
  match target with
  | none => .error .typeError
  | some _ => .ok { p with listening := true }

/-- The `DOMContentLoaded` listener of lines 1-13. -/
def domContentLoaded (doc : Document) (p : Page) : Except JsError Page :=
  let searchInput := getElementById doc "searchInput"
  let searchForm := getElementById doc "searchForm"
  if searchInput.isSome && searchForm.isSome then
    addInputListener searchInput p
  else
    .ok p

/-- The page once `DOMContentLoaded` has been handled (an error would leave the
fresh page behind: the listener's effects are lost with the exception). -/
def load (doc : Document) : Page :=
  match domContentLoaded doc Page.fresh with
  | .ok p => p
  | .error _ => Page.fresh

/-! ## Event loop -/

/-- The host delivers an `input` event at time `now` to the registered listeners. -/
def dispatchInput (now : Nat) (p : Page) : Page :=
  if p.listening then inputListener now p else p

/-- The host fires the timer with handle `id`: the timer leaves the queue and its
callback runs at the timer's due time.  A handle that is not queued does nothing. -/
def expire (id : Nat) (e : Env) : Env :=
  match e.timers.find? (fun tm => tm.id == id) with
  | none => e
  | some tm => timerCallback tm { e with timers := e.timers.filter (fun x => x.id != id) }

/-- What the event loop can do to the page. -/
inductive Event where
  | input (t : Nat)
  | expire (id : Nat)
deriving DecidableEq, Repr

/-- One turn of the event loop. -/
def step (p : Page) : Event → Page
  | .input t => dispatchInput t p
  | .expire id => { p with env := expire id p.env }

/-- Any interleaving of input notifications and timer expiries. -/
def exec (p : Page) (evs : List Event) : Page :=
  evs.foldl step p

/-- The spec leaves open which comes first when an input event and a timer expiry
fall on the same instant. -/
inductive Tie where
  | timerFirst
  | inputFirst
deriving DecidableEq, Repr

/-- Whether a timer due at `due` has fired by the time the input at `t` is handled. -/
def Tie.firedBy : Tie → Nat → Nat → Bool
  | .timerFirst, t, due => decide (due ≤ t)
  | .inputFirst, t, due => decide (due < t)

/-- The host fires every queued timer selected by `sel`, earliest due time first. -/
def fireAll (sel : Nat → Bool) (e : Env) : Env :=
  ((e.timers.filter (fun tm => sel tm.due)).insertionSort (fun a b => a.due ≤ b.due)).foldl
    (fun acc tm => expire tm.id acc) e

/-- The event loop driven by input notifications at the given times: before each
one, the timers that have come due are fired. -/
def runInputs (tie : Tie) : Page → List Nat → Page
  | p, [] => p
  | p, t :: ts =>
    runInputs tie (dispatchInput t { p with env := fireAll (tie.firedBy t) p.env }) ts

/-- A whole session: the page is loaded, the inputs arrive, and then nothing happens
for `silence` milliseconds after the last one. -/
def session (doc : Document) (tie : Tie) (ts : List Nat) (silence : Nat) : Page :=
  let p := runInputs tie (load doc) ts
  { p with env := fireAll (fun due => decide (due ≤ ts.getLast?.getD 0 + silence)) p.env }

/-- The times at which `searchForm.submit()` was invoked during a session. -/
def submitTimes (doc : Document) (tie : Tie) (ts : List Nat) (silence : Nat) : List Nat :=
  (session doc tie ts silence).env.submissions.map Submission.time

/-- A page that contains both elements the script looks up. -/
def searchPage : Document :=
  ⟨["searchInput", "searchForm"]⟩

/-- The two states of the spec's state machine. -/
inductive Phase where
  | idle
  | pending
deriving DecidableEq, Repr

/-- Idle when no timer is queued, Pending otherwise. -/
def phase (p : Page) : Phase :=
  match p.env.timers with
  | [] => .idle
  | _ :: _ => .pending

/-- The handle in `this.delay`, when a timer is queued, is that timer's: the queue
holds nothing else. -/
def Tidy (p : Page) : Prop :=
  p.env.timers = [] ∨ ∃ tm, p.env.timers = [tm] ∧ p.input.getProp "delay" = some tm.id

/-- A page that contains both elements the script looks up. -/
def Document.Complete (doc : Document) : Prop :=
  "searchInput" ∈ doc.ids ∧ "searchForm" ∈ doc.ids

instance (doc : Document) : Decidable doc.Complete := by
  unfold Document.Complete; infer_instance

/-- The inputs of a timeline that are followed by a gap longer than the quiet
period, each shifted by the quiet period. -/
def gapFires : List Nat → List Nat
  | t :: u :: rest => (if 500 < u - t then [t + 500] else []) ++ gapFires (u :: rest)
  | _ => []

/-- The number of consecutive gaps of a timeline that are longer than the quiet
period. -/
def longGaps (ts : List Nat) : Nat :=
  ((ts.zip ts.tail).filter (fun ab => decide (500 < ab.2 - ab.1))).length

/-! ## The same component with a dedicated timer handle

The variant the spec's design notes allow: the handle lives in a state variable of
the component instead of the `delay` property of the input element. -/

/-- Run-time state of the variant: the host environment, the component's handle
variable and whether the `input` listener is registered. -/
structure DedicatedPage where
  env : Env
  handle : Option Nat
  listening : Bool
deriving DecidableEq, Repr

/-- The variant's page before any script has run. -/
def DedicatedPage.fresh : DedicatedPage :=
  { env := { nextId := 1, timers := [], submissions := [] }, handle := none, listening := false }

/-- The variant's `input` listener: cancel the timer of the stored handle, schedule a
new one for the quiet period, store its handle. -/
def dedicatedInputListener (now : Nat) (p : DedicatedPage) : DedicatedPage :=
  let env1 := clearTimeout p.handle p.env
  let r := setTimeout now 500 env1
  { p with env := r.2, handle := some r.1 }

/-- The variant's initialisation: bind the listener when both elements exist. -/
def dedicatedDomContentLoaded (doc : Document) (p : DedicatedPage) :
    Except JsError DedicatedPage :=
  let searchInput := getElementById doc "searchInput"
  let searchForm := getElementById doc "searchForm"
  if searchInput.isSome && searchForm.isSome then
    match searchInput with
    | none => .error .typeError
    | some _ => .ok { p with listening := true }
  else
    .ok p

/-- The variant's page once it is initialised. -/
def dedicatedLoad (doc : Document) : DedicatedPage :=
  match dedicatedDomContentLoaded doc DedicatedPage.fresh with
  | .ok p => p
  | .error _ => DedicatedPage.fresh

/-- Delivery of an `input` event to the variant. -/
def dedicatedDispatchInput (now : Nat) (p : DedicatedPage) : DedicatedPage :=
  if p.listening then dedicatedInputListener now p else p

/-- One turn of the event loop on the variant. -/
def dedicatedStep (p : DedicatedPage) : Event → DedicatedPage
  | .input t => dedicatedDispatchInput t p
  | .expire id => { p with env := expire id p.env }

/-- Any interleaving of input notifications and timer expiries, on the variant. -/
def dedicatedExec (p : DedicatedPage) (evs : List Event) : DedicatedPage :=
  evs.foldl dedicatedStep p

/-- The event loop driven by a timeline of inputs, on the variant. -/
def dedicatedRunInputs (tie : Tie) : DedicatedPage → List Nat → DedicatedPage
  | p, [] => p
  | p, t :: ts =>
    dedicatedRunInputs tie
      (dedicatedDispatchInput t { p with env := fireAll (tie.firedBy t) p.env }) ts

/-- A whole session of the variant. -/
def dedicatedSession (doc : Document) (tie : Tie) (ts : List Nat) (silence : Nat) :
    DedicatedPage :=
  let p := dedicatedRunInputs tie (dedicatedLoad doc) ts
  { p with env := fireAll (fun due => decide (due ≤ ts.getLast?.getD 0 + silence)) p.env }

/-- The times at which the variant invoked `searchForm.submit()` during a session. -/
def dedicatedSubmitTimes (doc : Document) (tie : Tie) (ts : List Nat) (silence : Nat) :
    List Nat :=
  (dedicatedSession doc tie ts silence).env.submissions.map Submission.time

/-- The two implementations agree on everything but where the handle is kept. -/
def Matches (p : Page) (d : DedicatedPage) : Prop :=
  p.env = d.env ∧ p.input.getProp "delay" = d.handle ∧ p.listening = d.listening

/-- No input notification among the events. -/
def NoInput (evs : List Event) : Prop :=
  ∀ ev ∈ evs, ∀ t, ev ≠ Event.input t

/-- Where the queued timers and the submissions of the page reached by `evs` come
from: each goes back to one input notification of `evs`, which created the timer
under a fresh handle and was followed by no other input notification before the
timer's expiry (for a queued timer: up to now). -/
structure Traced (doc : Document) (evs : List Event) (p : Page) : Prop where
  queued : ∀ tm ∈ p.env.timers, tm.id < p.env.nextId ∧
    tm.id ∉ p.env.submissions.map Submission.timer ∧
    ∃ pre mid t, evs = pre ++ Event.input t :: mid ∧ NoInput mid ∧
      tm.id = (exec (load doc) pre).env.nextId ∧ tm.due = t + 500
  submitted : ∀ s ∈ p.env.submissions, s.timer < p.env.nextId ∧
    ∃ pre mid post t, evs = pre ++ Event.input t :: (mid ++ Event.expire s.timer :: post) ∧
      NoInput mid ∧ s.timer = (exec (load doc) pre).env.nextId ∧ s.time = t + 500
  once : (p.env.submissions.map Submission.timer).Nodup

/-! ## Basic facts about the host primitives -/

theorem getProp_setProp (e : Element) (k : String) (v : Nat) :
    (e.setProp k v).getProp k = some v := by
  simp [Element.setProp, Element.getProp, List.lookup]

theorem tidy_fresh : Tidy Page.fresh := Or.inl rfl

theorem load_eq (doc : Document) :
    load doc = { Page.fresh with
      listening := decide ("searchInput" ∈ doc.ids) && decide ("searchForm" ∈ doc.ids) } := by
  unfold load domContentLoaded getElementById addInputListener
  by_cases h1 : "searchInput" ∈ doc.ids <;> by_cases h2 : "searchForm" ∈ doc.ids <;>
    simp [h1, h2, Page.fresh]

theorem tidy_load (doc : Document) : Tidy (load doc) := by
  rw [load_eq]; exact Or.inl rfl

theorem clearTimeout_tidy {p : Page} (h : Tidy p) :
    clearTimeout (p.input.getProp "delay") p.env = { p.env with timers := [] } := by
  rcases h with h | ⟨tm, h, hd⟩
  · cases hp : p.input.getProp "delay" <;> simp [clearTimeout, h]
    rw [← h]
  · simp [clearTimeout, hd, h]

theorem inputListener_tidy {p : Page} (h : Tidy p) (now : Nat) :
    inputListener now p =
      { env := { nextId := p.env.nextId + 1, timers := [⟨p.env.nextId, now + 500⟩],
                 submissions := p.env.submissions },
        input := p.input.setProp "delay" p.env.nextId,
        listening := p.listening } := by
  simp [inputListener, clearTimeout_tidy h, setTimeout]

theorem tidy_inputListener {p : Page} (h : Tidy p) (now : Nat) :
    Tidy (inputListener now p) := by
  rw [inputListener_tidy h]
  exact Or.inr ⟨_, rfl, getProp_setProp _ _ _⟩

theorem tidy_dispatchInput {p : Page} (h : Tidy p) (now : Nat) :
    Tidy (dispatchInput now p) := by
  unfold dispatchInput
  split
  · exact tidy_inputListener h now
  · exact h

theorem expire_nil {e : Env} (h : e.timers = []) (id : Nat) : expire id e = e := by
  simp [expire, h]

theorem expire_single {e : Env} {tm : Timer} (h : e.timers = [tm]) (id : Nat) :
    expire id e =
      if tm.id = id then
        { e with timers := [], submissions := e.submissions ++ [⟨tm.id, tm.due⟩] }
      else e := by
  by_cases hid : tm.id = id
  · simp [expire, h, hid, timerCallback]
  · simp [expire, h, hid]

theorem tidy_expire {p : Page} (h : Tidy p) (id : Nat) :
    Tidy { p with env := expire id p.env } := by
  rcases h with h | ⟨tm, h, hd⟩
  · rw [expire_nil h]; exact Or.inl h
  · rw [expire_single h]
    split
    · exact Or.inl rfl
    · exact Or.inr ⟨tm, h, hd⟩

theorem tidy_step {p : Page} (h : Tidy p) (ev : Event) : Tidy (step p ev) := by
  cases ev with
  | input t => exact tidy_dispatchInput h t
  | expire id => exact tidy_expire h id

theorem tidy_exec {p : Page} (h : Tidy p) (evs : List Event) : Tidy (exec p evs) := by
  induction evs generalizing p with
  | nil => exact h
  | cons ev evs ih => exact ih (tidy_step h ev)

theorem fireAll_nil {e : Env} (h : e.timers = []) (sel : Nat → Bool) : fireAll sel e = e := by
  simp [fireAll, h]

theorem fireAll_single {e : Env} {tm : Timer} (h : e.timers = [tm]) (sel : Nat → Bool) :
    fireAll sel e =
      if sel tm.due then
        { e with timers := [], submissions := e.submissions ++ [⟨tm.id, tm.due⟩] }
      else e := by
  by_cases hs : sel tm.due
  · simp [fireAll, h, hs, List.filter, expire_single h]
  · simp [fireAll, h, hs, List.filter]

/-! ## Timelines -/

theorem dispatchInput_tidy {p : Page} (h : Tidy p) (hl : p.listening = true) (now : Nat) :
    dispatchInput now p =
      { env := { nextId := p.env.nextId + 1, timers := [⟨p.env.nextId, now + 500⟩],
                 submissions := p.env.submissions },
        input := p.input.setProp "delay" p.env.nextId,
        listening := true } := by
  simp [dispatchInput, hl, inputListener_tidy h]

theorem tidy_fireAll {p : Page} (h : Tidy p) (sel : Nat → Bool) :
    Tidy { p with env := fireAll sel p.env } := by
  rcases h with h | ⟨tm, h, hd⟩
  · rw [fireAll_nil h]; exact Or.inl h
  · rw [fireAll_single h]
    split
    · exact Or.inl rfl
    · exact Or.inr ⟨tm, h, hd⟩

theorem firedBy_iff (tie : Tie) {t u : Nat} (hlt : t < u) (hne : u - t ≠ 500) :
    tie.firedBy u (t + 500) = decide (500 < u - t) := by
  cases tie <;> simp only [Tie.firedBy, decide_eq_decide] <;> omega

/-- From a Pending state whose timer was set by an input at `t`, later inputs leave
the page Pending on the last input's timer, and the timers that fired on the way
are those of the long gaps. -/
theorem runInputs_pending (tie : Tie) :
    ∀ (rest : List Nat) (t i : Nat) (p : Page), p.listening = true →
      p.env.timers = [⟨i, t + 500⟩] → p.input.getProp "delay" = some i →
      List.Chain (fun a b => a < b ∧ b - a ≠ 500) t rest →
      ∃ j, (runInputs tie p rest).env.timers =
            [⟨j, (t :: rest).getLast (List.cons_ne_nil _ _) + 500⟩] ∧
        (runInputs tie p rest).env.submissions.map Submission.time =
          p.env.submissions.map Submission.time ++ gapFires (t :: rest) := by
  intro rest
  induction rest with
  | nil =>
    intro t i p _ ht _ _
    exact ⟨i, by simpa [runInputs] using ht, by simp [runInputs, gapFires]⟩
  | cons u rest ih =>
    intro t i p hl ht hd hc
    obtain ⟨⟨hlt, hne⟩, hc⟩ := List.chain_cons.mp hc
    have htidy : Tidy p := Or.inr ⟨_, ht, hd⟩
    have htidy2 := tidy_fireAll htidy (tie.firedBy u)
    have hq := dispatchInput_tidy htidy2 hl u
    simp only [runInputs]
    obtain ⟨j, h1, h2⟩ := ih u (fireAll (tie.firedBy u) p.env).nextId
      (dispatchInput u { p with env := fireAll (tie.firedBy u) p.env })
      (by rw [hq]) (by rw [hq]) (by rw [hq]; exact getProp_setProp _ _ _) hc
    refine ⟨j, ?_, ?_⟩
    · rw [h1, List.getLast_cons_cons]
    · rw [h2, hq]
      simp only [fireAll_single ht, firedBy_iff tie hlt hne, gapFires]
      by_cases hg : 500 < u - t <;> simp [hg]

theorem load_complete {doc : Document} (h : doc.Complete) :
    load doc = { Page.fresh with listening := true } := by
  rw [load_eq]; simp [h.1, h.2]

theorem load_incomplete {doc : Document} (h : ¬ doc.Complete) : load doc = Page.fresh := by
  rw [load_eq]
  unfold Document.Complete at h
  by_cases h1 : "searchInput" ∈ doc.ids <;> by_cases h2 : "searchForm" ∈ doc.ids <;>
    simp_all [Page.fresh]

/-- Without a listener and without a queued timer nothing ever happens. -/
theorem step_deaf {p : Page} (hl : p.listening = false) (ht : p.env.timers = [])
    (ev : Event) : step p ev = p := by
  cases ev with
  | input t => simp [step, dispatchInput, hl]
  | expire id => simp [step, expire_nil ht]

theorem exec_deaf {p : Page} (hl : p.listening = false) (ht : p.env.timers = [])
    (evs : List Event) : exec p evs = p := by
  induction evs with
  | nil => rfl
  | cons ev evs ih => simpa [exec, step_deaf hl ht] using ih

theorem runInputs_deaf (tie : Tie) {p : Page} (hl : p.listening = false)
    (ht : p.env.timers = []) (ts : List Nat) : runInputs tie p ts = p := by
  induction ts with
  | nil => rfl
  | cons t ts ih =>
    have hd : dispatchInput t { p with env := fireAll (tie.firedBy t) p.env } = p := by
      rw [fireAll_nil ht]
      obtain ⟨env, inp, l⟩ := p
      simp only at hl
      subst hl
      rfl
    rw [runInputs, hd]; exact ih

theorem submitTimes_incomplete {doc : Document} (h : ¬ doc.Complete) (tie : Tie)
    (ts : List Nat) (q : Nat) : submitTimes doc tie ts q = [] := by
  have hr : runInputs tie Page.fresh ts = Page.fresh := runInputs_deaf tie rfl rfl ts
  simp only [submitTimes, session, load_incomplete h, hr]
  rw [fireAll_nil rfl]
  rfl

theorem submitTimes_nil (doc : Document) (tie : Tie) (q : Nat) :
    submitTimes doc tie [] q = [] := by
  simp only [submitTimes, session, runInputs]
  rw [fireAll_nil (by rw [load_eq]; rfl), load_eq]
  rfl

/-- The submissions of a whole session on a complete page. -/
theorem submitTimes_cons {doc : Document} (hdoc : doc.Complete) (tie : Tie) (t : Nat)
    (rest : List Nat) (q : Nat) (hc : List.Chain (fun a b => a < b ∧ b - a ≠ 500) t rest) :
    submitTimes doc tie (t :: rest) q =
      gapFires (t :: rest) ++
        if 500 ≤ q then [(t :: rest).getLast (List.cons_ne_nil _ _) + 500] else [] := by
  have hf : fireAll (tie.firedBy t) (load doc).env = (load doc).env :=
    fireAll_nil (by rw [load_eq]; rfl) _
  have hq := dispatchInput_tidy (tidy_load doc) (by rw [load_complete hdoc]) t
  obtain ⟨j, h1, h2⟩ := runInputs_pending tie rest t (load doc).env.nextId
    (dispatchInput t (load doc)) (by rw [hq]) (by rw [hq])
    (by rw [hq]; exact getProp_setProp _ _ _) hc
  have hload : ({ load doc with env := (load doc).env } : Page) = load doc := rfl
  simp only [submitTimes, session, runInputs, hf, hload]
  rw [fireAll_single h1]
  have hlast : (t :: rest).getLast?.getD 0 = (t :: rest).getLast (List.cons_ne_nil _ _) := by
    rw [List.getLast?_eq_getLast _ (List.cons_ne_nil _ _)]; rfl
  rw [hlast]
  have hsub : (dispatchInput t (load doc)).env.submissions = [] := by
    rw [hq, load_eq]; rfl
  rw [hsub] at h2
  by_cases h500 : 500 ≤ q
  · have : (t :: rest).getLast (List.cons_ne_nil _ _) + 500 ≤
        (t :: rest).getLast (List.cons_ne_nil _ _) + q := by omega
    simp [this, h500, h2]
  · have : ¬ (t :: rest).getLast (List.cons_ne_nil _ _) + 500 ≤
        (t :: rest).getLast (List.cons_ne_nil _ _) + q := by omega
    simp [this, h500, h2]

/-! ## Facts about the expected firing times -/

theorem gapFires_burst :
    ∀ (rest : List Nat) (t : Nat), List.Chain (fun a b => a < b ∧ b - a < 500) t rest →
      gapFires (t :: rest) = []
  | [], _, _ => rfl
  | u :: rest, t, hc => by
    obtain ⟨⟨_, hlt⟩, hc⟩ := List.chain_cons.mp hc
    have hnot : ¬ 500 < u - t := by omega
    simp [gapFires, hnot, gapFires_burst rest u hc]

theorem chain_burst_weaken {t : Nat} {rest : List Nat}
    (hc : List.Chain (fun a b => a < b ∧ b - a < 500) t rest) :
    List.Chain (fun a b => a < b ∧ b - a ≠ 500) t rest :=
  hc.imp (fun _ _ h => ⟨h.1, by omega⟩)

theorem mem_gapFires :
    ∀ (ts : List Nat) (u : Nat), u ∈ gapFires ts ↔
      ∃ i a b, ts[i]? = some a ∧ ts[i + 1]? = some b ∧ 500 < b - a ∧ u = a + 500
  | [], u => by simp [gapFires]
  | [t], u => by simp [gapFires]
  | t :: v :: rest, u => by
    rw [gapFires, List.mem_append, mem_gapFires (v :: rest) u]
    constructor
    · rintro (h | ⟨i, a, b, h1, h2, h3, h4⟩)
      · by_cases hg : 500 < v - t
        · simp only [hg, if_true, List.mem_singleton] at h
          exact ⟨0, t, v, by simp, by simp, hg, h⟩
        · simp [hg] at h
      · exact ⟨i + 1, a, b, by simpa using h1, by simpa using h2, h3, h4⟩
    · rintro ⟨i, a, b, h1, h2, h3, h4⟩
      cases i with
      | zero =>
        simp only [List.getElem?_cons_zero, Option.some.injEq, zero_add,
          List.getElem?_cons_succ] at h1 h2
        subst h1 h2
        left
        simp [h3, h4]
      | succ i =>
        right
        exact ⟨i, a, b, by simpa using h1, by simpa using h2, h3, h4⟩

theorem length_gapFires : ∀ ts : List Nat, (gapFires ts).length = longGaps ts
  | [] => rfl
  | [t] => rfl
  | t :: v :: rest => by
    have ih := length_gapFires (v :: rest)
    simp only [longGaps, List.tail_cons] at ih
    simp only [gapFires, List.length_append, ih, longGaps, List.tail_cons, List.zip_cons_cons,
      List.filter_cons]
    by_cases hg : 500 < v - t
    · simp [hg]; omega
    · simp [hg]

theorem getLast_iff_index (ts : List Nat) (hne : ts ≠ []) (a : Nat) :
    (∃ i, ts[i]? = some a ∧ ts[i + 1]? = none) ↔ a = ts.getLast hne := by
  constructor
  · rintro ⟨i, h1, h2⟩
    have hi : i < ts.length := (List.getElem?_eq_some_iff.mp h1).1
    have hi2 : ts.length ≤ i + 1 := List.getElem?_eq_none_iff.mp h2
    have : i = ts.length - 1 := by omega
    subst this
    rw [List.getLast_eq_getElem]
    exact ((List.getElem?_eq_some_iff.mp h1).2).symm
  · rintro rfl
    have hpos : 0 < ts.length := List.length_pos.mpr hne
    refine ⟨ts.length - 1, ?_, ?_⟩
    · rw [List.getLast_eq_getElem]
      exact List.getElem?_eq_getElem _
    · exact List.getElem?_eq_none_iff.mpr (by omega)

theorem submitTimes_snoc {doc : Document} (hdoc : doc.Complete) (tie : Tie) (init : List Nat)
    (tn q : Nat) (hc : List.Chain' (fun a b => a < b ∧ b - a ≠ 500) (init ++ [tn])) :
    submitTimes doc tie (init ++ [tn]) q =
      gapFires (init ++ [tn]) ++ if 500 ≤ q then [tn + 500] else [] := by
  cases init with
  | nil => simpa using submitTimes_cons hdoc tie tn [] q hc
  | cons a l =>
    have h := submitTimes_cons hdoc tie a (l ++ [tn]) q hc
    have hlast : (a :: (l ++ [tn])).getLast (List.cons_ne_nil _ _) = tn := by
      exact List.getLast_append_singleton (a :: l)
    rw [hlast] at h
    simpa using h

theorem chain'_burst_weaken {ts : List Nat}
    (hc : List.Chain' (fun a b => a < b ∧ b - a < 500) ts) :
    List.Chain' (fun a b => a < b ∧ b - a ≠ 500) ts :=
  hc.imp (fun _ _ h => ⟨h.1, by omega⟩)

theorem gapFires_burst_snoc {ts : List Nat}
    (hc : List.Chain' (fun a b => a < b ∧ b - a < 500) ts) : gapFires ts = [] := by
  cases ts with
  | nil => rfl
  | cons t rest => exact gapFires_burst rest t hc

/-- On a complete page a burst followed by silence submits once, when the quiet
period after the last input has passed, provided the silence lasts that long. -/
theorem submitTimes_burst {doc : Document} (hdoc : doc.Complete) (tie : Tie) (init : List Nat)
    (tn q : Nat) (hc : List.Chain' (fun a b => a < b ∧ b - a < 500) (init ++ [tn])) :
    submitTimes doc tie (init ++ [tn]) q = if 500 ≤ q then [tn + 500] else [] := by
  rw [submitTimes_snoc hdoc tie init tn q (chain'_burst_weaken hc), gapFires_burst_snoc hc]
  rfl

/-! ## Reachable states -/

theorem exec_append (p : Page) (evs more : List Event) :
    exec p (evs ++ more) = exec (exec p evs) more := by
  simp [exec, List.foldl_append]

theorem exec_incomplete {doc : Document} (h : ¬ doc.Complete) (evs : List Event) :
    exec (load doc) evs = Page.fresh := by
  rw [load_incomplete h]; exact exec_deaf rfl rfl evs

theorem listening_step (p : Page) (ev : Event) : (step p ev).listening = p.listening := by
  cases ev with
  | input t =>
    simp only [step, dispatchInput]
    split <;> rfl
  | expire id => rfl

theorem listening_exec (p : Page) (evs : List Event) :
    (exec p evs).listening = p.listening := by
  induction evs generalizing p with
  | nil => rfl
  | cons ev evs ih =>
    have h := ih (step p ev)
    rw [listening_step] at h
    exact h

/-- A reachable page with a queued timer has the listener registered. -/
theorem listening_of_pending {doc : Document} {evs : List Event}
    (h : (exec (load doc) evs).env.timers ≠ []) : (exec (load doc) evs).listening = true := by
  by_cases hdoc : doc.Complete
  · rw [listening_exec, load_complete hdoc]
  · rw [exec_incomplete hdoc] at h
    exact absurd rfl h

theorem inputListener_submissions (t : Nat) (p : Page) :
    (inputListener t p).env.submissions = p.env.submissions := by
  cases h : p.input.getProp "delay" <;> simp [inputListener, clearTimeout, setTimeout, h]

theorem noInput_nil : NoInput [] := by
  intro ev h; cases h

theorem noInput_snoc_expire {mid : List Event} (h : NoInput mid) (id : Nat) :
    NoInput (mid ++ [Event.expire id]) := by
  intro ev hev t
  rcases List.mem_append.mp hev with h1 | h1
  · exact h ev h1 t
  · rw [List.mem_singleton.mp h1]; exact fun hc => Event.noConfusion hc

/-- A submission's origin stays where it is when the run goes on. -/
theorem submitted_extend {doc : Document} {evs : List Event} {s : Submission} (ev : Event)
    (h : ∃ pre mid post t, evs = pre ++ Event.input t :: (mid ++ Event.expire s.timer :: post) ∧
      NoInput mid ∧ s.timer = (exec (load doc) pre).env.nextId ∧ s.time = t + 500) :
    ∃ pre mid post t,
      evs ++ [ev] = pre ++ Event.input t :: (mid ++ Event.expire s.timer :: post) ∧
      NoInput mid ∧ s.timer = (exec (load doc) pre).env.nextId ∧ s.time = t + 500 := by
  obtain ⟨pre, mid, post, t, h1, h2, h3, h4⟩ := h
  exact ⟨pre, mid, post ++ [ev], t, by simp [h1], h2, h3, h4⟩

theorem traced_input {doc : Document} {evs : List Event}
    (hl : (exec (load doc) evs).listening = true) (h : Traced doc evs (exec (load doc) evs))
    (t : Nat) : Traced doc (evs ++ [Event.input t]) (exec (load doc) (evs ++ [Event.input t])) := by
  have htidy := tidy_exec (tidy_load doc) evs
  have hq : exec (load doc) (evs ++ [Event.input t]) = dispatchInput t (exec (load doc) evs) := by
    rw [exec_append]; rfl
  rw [hq, dispatchInput_tidy htidy hl]
  refine ⟨?_, ?_, h.once⟩
  · intro tm htm
    rw [List.mem_singleton.mp htm]
    refine ⟨Nat.lt_succ_self _, ?_, evs, [], t, rfl, noInput_nil, rfl, rfl⟩
    intro hmem
    obtain ⟨s, hs, hst⟩ := List.mem_map.mp hmem
    have := (h.submitted s hs).1
    simp only at hst
    omega
  · intro s hs
    obtain ⟨h1, h2⟩ := h.submitted s hs
    exact ⟨Nat.lt_succ_of_lt h1, submitted_extend _ h2⟩

theorem traced_expire {doc : Document} {evs : List Event}
    (h : Traced doc evs (exec (load doc) evs)) (id : Nat) :
    Traced doc (evs ++ [Event.expire id]) (exec (load doc) (evs ++ [Event.expire id])) := by
  have hq : exec (load doc) (evs ++ [Event.expire id]) =
      { exec (load doc) evs with env := expire id (exec (load doc) evs).env } := by
    rw [exec_append]; rfl
  rw [hq]
  rcases tidy_exec (tidy_load doc) evs with h0 | ⟨tm, h0, _⟩
  · rw [expire_nil h0]
    refine ⟨?_, ?_, h.once⟩
    · intro tm htm
      rw [h0] at htm
      cases htm
    · intro s hs
      obtain ⟨h1, h2⟩ := h.submitted s hs
      exact ⟨h1, submitted_extend _ h2⟩
  · have htm := h.queued tm (by rw [h0]; exact List.mem_singleton_self tm)
    obtain ⟨hlt, hfresh, pre, mid, t, h1, h2, h3, h4⟩ := htm
    rw [expire_single h0]
    by_cases hid : tm.id = id
    · rw [if_pos hid]
      refine ⟨?_, ?_, ?_⟩
      · intro x hx
        cases hx
      · intro s hs
        rcases List.mem_append.mp hs with hs | hs
        · obtain ⟨h5, h6⟩ := h.submitted s hs
          exact ⟨h5, submitted_extend _ h6⟩
        · rw [List.mem_singleton.mp hs]
          refine ⟨hlt, pre, mid, [], t, ?_, h2, h3, h4⟩
          simp [h1, hid]
      · simp only [List.map_append, List.map_cons, List.map_nil]
        exact List.Nodup.append h.once (List.nodup_singleton _)
          (by
            intro a ha hb
            rw [List.mem_singleton.mp hb] at ha
            exact hfresh ha)
    · rw [if_neg hid]
      refine ⟨?_, ?_, h.once⟩
      · intro x hx
        simp only [h0, List.mem_singleton] at hx
        subst hx
        refine ⟨hlt, hfresh, pre, mid ++ [Event.expire id], t, ?_, noInput_snoc_expire h2 id,
          h3, h4⟩
        simp [h1]
      · intro s hs
        obtain ⟨h5, h6⟩ := h.submitted s hs
        exact ⟨h5, submitted_extend _ h6⟩

theorem traced_exec (doc : Document) (evs : List Event) :
    Traced doc evs (exec (load doc) evs) := by
  by_cases hdoc : doc.Complete
  · induction evs using List.reverseRecOn with
    | nil =>
      rw [load_eq]
      exact ⟨fun tm h => (by cases h), fun s h => (by cases h), List.nodup_nil⟩
    | append_singleton evs ev ih =>
      cases ev with
      | input t => exact traced_input (by rw [listening_exec, load_complete hdoc]) ih t
      | expire id => exact traced_expire ih id
  · rw [exec_incomplete hdoc]
    exact ⟨fun tm h => (by cases h), fun s h => (by cases h), List.nodup_nil⟩

/-! ## Simulation between the two placements of the handle -/

theorem matches_load (doc : Document) : Matches (load doc) (dedicatedLoad doc) := by
  unfold load dedicatedLoad domContentLoaded dedicatedDomContentLoaded getElementById
    addInputListener
  by_cases h1 : "searchInput" ∈ doc.ids <;> by_cases h2 : "searchForm" ∈ doc.ids <;>
    simp [h1, h2, Matches, Page.fresh, DedicatedPage.fresh, Element.getProp]

theorem matches_dispatch {p : Page} {d : DedicatedPage} (h : Matches p d) (t : Nat) :
    Matches (dispatchInput t p) (dedicatedDispatchInput t d) := by
  obtain ⟨he, hh, hl⟩ := h
  unfold dispatchInput dedicatedDispatchInput
  rw [← hl]
  by_cases hp : p.listening = true
  · rw [if_pos hp, if_pos hp]
    refine ⟨?_, ?_, hl⟩
    · simp [inputListener, dedicatedInputListener, he, hh]
    · simp only [inputListener, dedicatedInputListener, getProp_setProp, he, hh]
  · rw [if_neg hp, if_neg hp]
    exact ⟨he, hh, hl⟩

theorem matches_env {p : Page} {d : DedicatedPage} (h : Matches p d) (f : Env → Env) :
    Matches { p with env := f p.env } { d with env := f d.env } := by
  obtain ⟨he, hh, hl⟩ := h
  exact ⟨by simp [he], hh, hl⟩

theorem matches_step {p : Page} {d : DedicatedPage} (h : Matches p d) (ev : Event) :
    Matches (step p ev) (dedicatedStep d ev) := by
  cases ev with
  | input t => exact matches_dispatch h t
  | expire id => exact matches_env h (expire id)

theorem matches_exec {p : Page} {d : DedicatedPage} (h : Matches p d) (evs : List Event) :
    Matches (exec p evs) (dedicatedExec d evs) := by
  induction evs generalizing p d with
  | nil => exact h
  | cons ev evs ih => exact ih (matches_step h ev)

theorem matches_runInputs (tie : Tie) {p : Page} {d : DedicatedPage} (h : Matches p d)
    (ts : List Nat) : Matches (runInputs tie p ts) (dedicatedRunInputs tie d ts) := by
  induction ts generalizing p d with
  | nil => exact h
  | cons t ts ih => exact ih (matches_dispatch (matches_env h (fireAll (tie.firedBy t))) t)

theorem matches_session (doc : Document) (tie : Tie) (ts : List Nat) (q : Nat) :
    Matches (session doc tie ts q) (dedicatedSession doc tie ts q) :=
  matches_env (matches_runInputs tie (matches_load doc) ts) _

theorem exec_snoc (p : Page) (evs : List Event) (ev : Event) :
    exec p (evs ++ [ev]) = step (exec p evs) ev := by
  rw [exec_append]; rfl

/-- Firing the only queued timer of a reachable page. -/
theorem expire_queued {doc : Document} {evs : List Event} {tm : Timer}
    (hq : tm ∈ (exec (load doc) evs).env.timers) :
    exec (load doc) (evs ++ [Event.expire tm.id]) =
      { env := { nextId := (exec (load doc) evs).env.nextId, timers := [],
                 submissions := (exec (load doc) evs).env.submissions ++ [⟨tm.id, tm.due⟩] },
        input := (exec (load doc) evs).input,
        listening := true } ∧
      (exec (load doc) evs).input.getProp "delay" = some tm.id := by
  have hl := listening_of_pending (List.ne_nil_of_mem hq)
  rcases tidy_exec (tidy_load doc) evs with h0 | ⟨x, h0, hd⟩
  · rw [h0] at hq; cases hq
  · rw [h0, List.mem_singleton] at hq
    subst hq
    refine ⟨?_, hd⟩
    rw [exec_snoc]
    simp only [step, expire_single h0, if_true, hl]

/-! ## The claims -/

/-- C1 (debounce correctness): when the input notifications `t_1 < ... < t_n` (here
`init ++ [tn]`) are less than 500 apart, every invocation of `searchForm.submit()`
in the session, however long it is observed, happens at `t_n + 500` or later; so
none happens in `[t_1, t_n + 500)`. -/
theorem no_submit_before_quiet_period (doc : Document) (tie : Tie) (init : List Nat)
    (tn q : Nat) (hgap : List.Chain' (fun a b => a < b ∧ b - a < 500) (init ++ [tn])) :
    ∀ u ∈ submitTimes doc tie (init ++ [tn]) q, tn + 500 ≤ u := by
  intro u hu
  by_cases hdoc : doc.Complete
  · rw [submitTimes_burst hdoc tie init tn q hgap] at hu
    by_cases hq : 500 ≤ q
    · simp only [hq, if_true, List.mem_singleton] at hu
      omega
    · simp [hq] at hu
  · simp [submitTimes_incomplete hdoc] at hu

/-- The spec's example for C1: notifications at 0, 100, 200, 300 give no submit
before 800. -/
theorem no_submit_before_quiet_period_witness :
    List.Chain' (fun a b => a < b ∧ b - a < 500) ([0, 100, 200] ++ [300]) ∧
      ∀ u ∈ submitTimes searchPage Tie.timerFirst ([0, 100, 200] ++ [300]) 500, 300 + 500 ≤ u :=
  ⟨by simp, no_submit_before_quiet_period searchPage Tie.timerFirst [0, 100, 200] 300 500
    (by simp)⟩

/-- C2 as stated fails: two inputs more than the quiet period apart, followed by
silence, submit twice. -/
theorem single_submission_counterexample :
    submitTimes searchPage Tie.inputFirst [0, 1000] 500 = [500, 1500] ∧
      (submitTimes searchPage Tie.inputFirst [0, 1000] 500).length ≠ 1 := by
  decide

/-- C2 amended (single submission): a non-empty sequence of input notifications in
which consecutive ones are less than 500 apart, followed by silence of at least
500, makes the page invoke `searchForm.submit()` exactly once, at `t_n + 500`. -/
theorem single_submission_per_burst (doc : Document) (hdoc : doc.Complete) (tie : Tie)
    (init : List Nat) (tn q : Nat)
    (hgap : List.Chain' (fun a b => a < b ∧ b - a < 500) (init ++ [tn])) (hq : 500 ≤ q) :
    submitTimes doc tie (init ++ [tn]) q = [tn + 500] := by
  rw [submitTimes_burst hdoc tie init tn q hgap, if_pos hq]

/-- A burst of three keystrokes and half a second of silence. -/
theorem single_submission_per_burst_witness :
    searchPage.Complete ∧
      List.Chain' (fun a b => a < b ∧ b - a < 500) ([0, 50] ++ [120]) ∧ 500 ≤ 500 ∧
      submitTimes searchPage Tie.inputFirst ([0, 50] ++ [120]) 500 = [120 + 500] :=
  ⟨by decide, by simp, by decide,
    single_submission_per_burst searchPage (by decide) Tie.inputFirst [0, 50] 120 500
      (by simp) (by decide)⟩

/-- C7 (session scenario): inputs at 0, 50, 120 and then at 1000 produce exactly two
invocations of `searchForm.submit()`, at 620 and at 1500, whichever way ties are
broken and however long the final silence beyond 500. -/
theorem session_scenario (doc : Document) (hdoc : doc.Complete) (tie : Tie) (q : Nat)
    (hq : 500 ≤ q) : submitTimes doc tie [0, 50, 120, 1000] q = [620, 1500] := by
  have h := submitTimes_snoc hdoc tie [0, 50, 120] 1000 q (by simp)
  simp only [List.cons_append, List.nil_append] at h
  rw [h, if_pos hq]
  decide

/-- The scenario on the standard page with exactly 500 of silence. -/
theorem session_scenario_witness :
    searchPage.Complete ∧ 500 ≤ 500 ∧
      submitTimes searchPage Tie.timerFirst [0, 50, 120, 1000] 500 = [620, 1500] :=
  ⟨by decide, by decide, session_scenario searchPage (by decide) Tie.timerFirst 500 (by decide)⟩

/-- C10 (exact characterisation): for inputs `t_1 < ... < t_n` with no gap of
exactly 500, followed by at least 500 of silence, `searchForm.submit()` is invoked
at time `u` exactly when `u = t_i + 500` for the last input or for an input
followed by a gap longer than 500; the number of invocations is 0 for no input
and otherwise 1 plus the number of gaps longer than 500. -/
theorem submissions_exactly_after_quiet_gaps (doc : Document) (hdoc : doc.Complete)
    (tie : Tie) (ts : List Nat) (q : Nat)
    (hts : List.Chain' (fun a b => a < b ∧ b - a ≠ 500) ts) (hq : 500 ≤ q) :
    (∀ u, u ∈ submitTimes doc tie ts q ↔
        ∃ i a, ts[i]? = some a ∧ u = a + 500 ∧
          (ts[i + 1]? = none ∨ ∃ b, ts[i + 1]? = some b ∧ 500 < b - a)) ∧
      (submitTimes doc tie ts q).length = if ts = [] then 0 else 1 + longGaps ts := by
  rcases List.eq_nil_or_concat ts with rfl | ⟨init, tn, h⟩
  · simp [submitTimes_nil]
  · rw [List.concat_eq_append] at h
    subst h
    have hne : init ++ [tn] ≠ [] := by simp
    have hlast : (init ++ [tn]).getLast hne = tn := List.getLast_append_singleton _
    rw [submitTimes_snoc hdoc tie init tn q hts, if_pos hq]
    refine ⟨fun u => ?_, ?_⟩
    · rw [List.mem_append, List.mem_singleton, mem_gapFires]
      constructor
      · rintro (⟨i, a, b, h1, h2, h3, h4⟩ | h)
        · exact ⟨i, a, h1, h4, Or.inr ⟨b, h2, h3⟩⟩
        · obtain ⟨i, h1, h2⟩ := (getLast_iff_index _ hne tn).mpr hlast.symm
          exact ⟨i, tn, h1, h, Or.inl h2⟩
      · rintro ⟨i, a, h1, h4, h2 | ⟨b, h2, h3⟩⟩
        · right
          rw [h4, (getLast_iff_index _ hne a).mp ⟨i, h1, h2⟩, hlast]
        · exact Or.inl ⟨i, a, b, h1, h2, h3, h4⟩
    · rw [if_neg hne, List.length_append, length_gapFires]
      simp only [List.length_singleton]
      omega

/-- Four inputs with one long gap: two submissions. -/
theorem submissions_exactly_after_quiet_gaps_witness :
    searchPage.Complete ∧
      List.Chain' (fun a b => a < b ∧ b - a ≠ 500) [0, 50, 120, 1000] ∧ 500 ≤ 700 ∧
      (∀ u, u ∈ submitTimes searchPage Tie.inputFirst [0, 50, 120, 1000] 700 ↔
        ∃ i a, [0, 50, 120, 1000][i]? = some a ∧ u = a + 500 ∧
          ([0, 50, 120, 1000][i + 1]? = none ∨
            ∃ b, [0, 50, 120, 1000][i + 1]? = some b ∧ 500 < b - a)) ∧
      (submitTimes searchPage Tie.inputFirst [0, 50, 120, 1000] 700).length =
        if ([0, 50, 120, 1000] : List Nat) = [] then 0 else 1 + longGaps [0, 50, 120, 1000] :=
  ⟨by decide, by simp, by decide,
    submissions_exactly_after_quiet_gaps searchPage (by decide) Tie.inputFirst
      [0, 50, 120, 1000] 700 (by simp) (by decide)⟩

/-- C3 (missing-element tolerance): when `getElementById` returns `null` for
`"searchInput"` or for `"searchForm"`, the `DOMContentLoaded` handler returns
normally and leaves the page state as it found it (no listener registered, no
timer queued, no submission); and whatever the event loop does afterwards, the
page stays the fresh page: not listening, no timer, no submission. -/
theorem missing_element_is_silent_noop (doc : Document)
    (hmiss : getElementById doc "searchInput" = none ∨ getElementById doc "searchForm" = none) :
    (∀ p : Page, domContentLoaded doc p = Except.ok p) ∧
      ∀ evs : List Event, exec (load doc) evs = Page.fresh ∧
        (exec (load doc) evs).listening = false ∧ (exec (load doc) evs).env.timers = [] ∧
        (exec (load doc) evs).env.submissions = [] := by
  have hdoc : ¬ doc.Complete := by
    unfold getElementById at hmiss
    rintro ⟨h1, h2⟩
    simp [h1, h2] at hmiss
  refine ⟨fun p => ?_, fun evs => ?_⟩
  · unfold domContentLoaded
    rcases hmiss with h | h <;> simp [h]
  · rw [exec_incomplete hdoc]
    exact ⟨rfl, rfl, rfl, rfl⟩

/-- A page with the input but without the form. -/
theorem missing_element_is_silent_noop_witness :
    (getElementById ⟨["searchInput"]⟩ "searchInput" = none ∨
        getElementById ⟨["searchInput"]⟩ "searchForm" = none) ∧
      ((∀ p : Page, domContentLoaded ⟨["searchInput"]⟩ p = Except.ok p) ∧
        ∀ evs : List Event, exec (load ⟨["searchInput"]⟩) evs = Page.fresh ∧
          (exec (load ⟨["searchInput"]⟩) evs).listening = false ∧
          (exec (load ⟨["searchInput"]⟩) evs).env.timers = [] ∧
          (exec (load ⟨["searchInput"]⟩) evs).env.submissions = []) :=
  ⟨by decide, missing_element_is_silent_noop ⟨["searchInput"]⟩ (by decide)⟩

/-- C4 (at most one pending timer): in every state reached from the loaded page by
any interleaving of input notifications and timer expiries, at most one timer is
queued, and a queued timer is the one whose handle `this.delay` holds (so the next
input notification cancels it before scheduling a new one). -/
theorem at_most_one_pending_timer (doc : Document) (evs : List Event) :
    (exec (load doc) evs).env.timers.length ≤ 1 ∧
      ∀ tm ∈ (exec (load doc) evs).env.timers,
        (exec (load doc) evs).input.getProp "delay" = some tm.id := by
  rcases tidy_exec (tidy_load doc) evs with h | ⟨tm, h, hd⟩
  · simp [h]
  · simp [h, hd]

/-- C6 (effect of one input notification): in every reachable state, the handler's
`clearTimeout(this.delay)` empties the timer queue and touches nothing else (so it
changes nothing when no timer is queued); the handler then leaves exactly one
queued timer, due at `t + 500`, with its fresh handle stored in `this.delay`; it
invokes no submit; and the resulting state is Pending. -/
theorem input_notification_effect (doc : Document) (evs : List Event) (t : Nat) :
    clearTimeout ((exec (load doc) evs).input.getProp "delay") (exec (load doc) evs).env =
        { (exec (load doc) evs).env with timers := [] } ∧
      ((exec (load doc) evs).env.timers = [] →
        clearTimeout ((exec (load doc) evs).input.getProp "delay") (exec (load doc) evs).env =
          (exec (load doc) evs).env) ∧
      (inputListener t (exec (load doc) evs)).env.timers =
        [⟨(exec (load doc) evs).env.nextId, t + 500⟩] ∧
      (inputListener t (exec (load doc) evs)).input.getProp "delay" =
        some (exec (load doc) evs).env.nextId ∧
      (inputListener t (exec (load doc) evs)).env.submissions =
        (exec (load doc) evs).env.submissions ∧
      phase (inputListener t (exec (load doc) evs)) = Phase.pending := by
  have h := tidy_exec (tidy_load doc) evs
  refine ⟨clearTimeout_tidy h, fun h0 => ?_, ?_, ?_, ?_, ?_⟩
  · rw [clearTimeout_tidy h, ← h0]
  · rw [inputListener_tidy h]
  · rw [inputListener_tidy h]; exact getProp_setProp _ _ _
  · rw [inputListener_tidy h]
  · rw [inputListener_tidy h]; rfl

/-- C9 (handle placement is not observable): keeping the timer handle in
`this.delay` on the input element, as the source does, or in a dedicated variable
of the component gives, for every timeline of input notifications (and for every
interleaving of notifications and expiries), the same submit invocations in the same
order at the same times, and the same timer queue. -/
theorem handle_placement_not_observable (doc : Document) :
    (∀ (tie : Tie) (ts : List Nat) (q : Nat),
        submitTimes doc tie ts q = dedicatedSubmitTimes doc tie ts q ∧
        (session doc tie ts q).env = (dedicatedSession doc tie ts q).env) ∧
      ∀ evs : List Event,
        (exec (load doc) evs).env = (dedicatedExec (dedicatedLoad doc) evs).env := by
  refine ⟨fun tie ts q => ?_, fun evs => (matches_exec (matches_load doc) evs).1⟩
  have h := (matches_session doc tie ts q).1
  exact ⟨by simp only [submitTimes, dedicatedSubmitTimes, h], h⟩

/-- C8 (trailing edge only): in every reachable state, an input notification adds no
invocation of `searchForm.submit()`; every invocation so far is the expiry of a
timer that an input notification at some time `t` created (under the handle that
was fresh then), with no other input notification between that one and the expiry,
and it happened at exactly `t + 500`; no timer has invoked submit twice; and the
expiry of a queued timer adds exactly one invocation, at the timer's due time,
while the expiry of a handle that is not queued adds none. -/
theorem submit_only_on_trailing_edge (doc : Document) (evs : List Event) :
    (∀ t, (exec (load doc) (evs ++ [Event.input t])).env.submissions =
        (exec (load doc) evs).env.submissions) ∧
      (∀ s ∈ (exec (load doc) evs).env.submissions,
        ∃ pre mid post t,
          evs = pre ++ Event.input t :: (mid ++ Event.expire s.timer :: post) ∧
          NoInput mid ∧ s.timer = (exec (load doc) pre).env.nextId ∧ s.time = t + 500) ∧
      ((exec (load doc) evs).env.submissions.map Submission.timer).Nodup ∧
      (∀ tm ∈ (exec (load doc) evs).env.timers,
        (exec (load doc) (evs ++ [Event.expire tm.id])).env.submissions =
          (exec (load doc) evs).env.submissions ++ [⟨tm.id, tm.due⟩]) ∧
      ∀ id, (∀ tm ∈ (exec (load doc) evs).env.timers, tm.id ≠ id) →
        (exec (load doc) (evs ++ [Event.expire id])).env.submissions =
          (exec (load doc) evs).env.submissions := by
  have htr := traced_exec doc evs
  refine ⟨fun t => ?_, fun s hs => (htr.submitted s hs).2, htr.once, fun tm hq => ?_,
    fun id hid => ?_⟩
  · rw [exec_snoc]
    simp only [step, dispatchInput]
    split
    · exact inputListener_submissions t _
    · rfl
  · rw [(expire_queued hq).1]
  · rw [exec_snoc]
    rcases tidy_exec (tidy_load doc) evs with h0 | ⟨x, h0, _⟩
    · simp only [step, expire_nil h0]
    · have hx : x.id ≠ id := hid x (by rw [h0]; exact List.mem_singleton_self x)
      simp only [step, expire_single h0, if_neg hx]

/-- C5 as stated fails: after one input and the expiry of its timer the page is Idle
again, but `this.delay` still holds the handle of the fired timer, whereas before
any notification it was `undefined`. -/
theorem rearming_state_counterexample :
    phase (exec (load searchPage) [Event.input 0, Event.expire 1]) = Phase.idle ∧
      (exec (load searchPage) [Event.input 0, Event.expire 1]).env.submissions = [⟨1, 500⟩] ∧
      (exec (load searchPage) [Event.input 0, Event.expire 1]).input.getProp "delay" = some 1 ∧
      (load searchPage).input.getProp "delay" = none ∧
      (exec (load searchPage) [Event.input 0, Event.expire 1]).input ≠ (load searchPage).input := by
  decide

/-- C5 amended (re-arming): when a queued timer expires, the submission is made and
the page is Idle; `this.delay` keeps the fired timer's handle, which is stale:
clearing it changes nothing.  A following input notification at `t` then behaves
as a first one does: it queues exactly one timer, due at `t + 500`, and submits
nothing itself; that timer's expiry submits at `t + 500`, unless another input
notification came first, in which case that expiry submits nothing. -/
theorem rearming_after_expiry (doc : Document) (evs : List Event) (tm : Timer)
    (hq : tm ∈ (exec (load doc) evs).env.timers) (t : Nat) :
    phase (exec (load doc) (evs ++ [Event.expire tm.id])) = Phase.idle ∧
      (exec (load doc) (evs ++ [Event.expire tm.id])).env.submissions =
        (exec (load doc) evs).env.submissions ++ [⟨tm.id, tm.due⟩] ∧
      (exec (load doc) (evs ++ [Event.expire tm.id])).input.getProp "delay" = some tm.id ∧
      clearTimeout ((exec (load doc) (evs ++ [Event.expire tm.id])).input.getProp "delay")
          (exec (load doc) (evs ++ [Event.expire tm.id])).env =
        (exec (load doc) (evs ++ [Event.expire tm.id])).env ∧
      (exec (load doc) (evs ++ [Event.expire tm.id] ++ [Event.input t])).env.timers =
        [⟨(exec (load doc) evs).env.nextId, t + 500⟩] ∧
      (exec (load doc) [Event.input t]).env.timers = [⟨(load doc).env.nextId, t + 500⟩] ∧
      (exec (load doc) (evs ++ [Event.expire tm.id] ++ [Event.input t])).env.submissions =
        (exec (load doc) evs).env.submissions ++ [⟨tm.id, tm.due⟩] ∧
      (exec (load doc) (evs ++ [Event.expire tm.id] ++ [Event.input t] ++
          [Event.expire (exec (load doc) evs).env.nextId])).env.submissions =
        (exec (load doc) evs).env.submissions ++ [⟨tm.id, tm.due⟩] ++
          [⟨(exec (load doc) evs).env.nextId, t + 500⟩] ∧
      ∀ u, (exec (load doc) (evs ++ [Event.expire tm.id] ++ [Event.input t] ++
          [Event.input u] ++ [Event.expire (exec (load doc) evs).env.nextId])).env.submissions =
        (exec (load doc) evs).env.submissions ++ [⟨tm.id, tm.due⟩] := by
  obtain ⟨hfired, hdelay⟩ := expire_queued hq
  have hl : (load doc).listening = true := by
    rw [← listening_exec (load doc) evs]; exact listening_of_pending (List.ne_nil_of_mem hq)
  have hinput := dispatchInput_tidy (tidy_exec (tidy_load doc) (evs ++ [Event.expire tm.id]))
    (by rw [hfired]) t
  have hstep : exec (load doc) (evs ++ [Event.expire tm.id] ++ [Event.input t]) =
      dispatchInput t (exec (load doc) (evs ++ [Event.expire tm.id])) := exec_snoc _ _ _
  rw [hinput] at hstep
  have hfirst : exec (load doc) [Event.input t] = dispatchInput t (load doc) := rfl
  refine ⟨by rw [hfired]; rfl, by rw [hfired], by rw [hfired]; exact hdelay, ?_,
    by rw [hstep, hfired], ?_, by rw [hstep, hfired], ?_, fun u => ?_⟩
  · rw [hfired]; simp [hdelay, clearTimeout]
  · rw [hfirst, dispatchInput_tidy (tidy_load doc) hl]
  · rw [exec_snoc, hstep]
    simp only [step]
    rw [expire_single rfl, if_pos (by rw [hfired]), hfired]
  · have hsup := dispatchInput_tidy
      (tidy_exec (tidy_load doc) (evs ++ [Event.expire tm.id] ++ [Event.input t]))
      (by rw [hstep]) u
    rw [exec_snoc, exec_snoc]
    simp only [step]
    rw [hsup, expire_single rfl, if_neg (by rw [hstep, hfired]; simp), hstep, hfired]

/-- One input, its timer's expiry, and a second input at 1000. -/
theorem rearming_after_expiry_witness :
    (⟨1, 500⟩ : Timer) ∈ (exec (load searchPage) [Event.input 0]).env.timers ∧
      (phase (exec (load searchPage) ([Event.input 0] ++ [Event.expire 1])) = Phase.idle ∧
      (exec (load searchPage) ([Event.input 0] ++ [Event.expire 1])).env.submissions =
        (exec (load searchPage) [Event.input 0]).env.submissions ++ [⟨1, 500⟩] ∧
      (exec (load searchPage) ([Event.input 0] ++ [Event.expire 1])).input.getProp "delay" = some 1 ∧
      clearTimeout ((exec (load searchPage) ([Event.input 0] ++ [Event.expire 1])).input.getProp "delay")
          (exec (load searchPage) ([Event.input 0] ++ [Event.expire 1])).env =
        (exec (load searchPage) ([Event.input 0] ++ [Event.expire 1])).env ∧
      (exec (load searchPage) ([Event.input 0] ++ [Event.expire 1] ++ [Event.input 1000])).env.timers =
        [⟨(exec (load searchPage) [Event.input 0]).env.nextId, 1000 + 500⟩] ∧
      (exec (load searchPage) [Event.input 1000]).env.timers = [⟨(load searchPage).env.nextId, 1000 + 500⟩] ∧
      (exec (load searchPage) ([Event.input 0] ++ [Event.expire 1] ++ [Event.input 1000])).env.submissions =
        (exec (load searchPage) [Event.input 0]).env.submissions ++ [⟨1, 500⟩] ∧
      (exec (load searchPage) ([Event.input 0] ++ [Event.expire 1] ++ [Event.input 1000] ++
          [Event.expire (exec (load searchPage) [Event.input 0]).env.nextId])).env.submissions =
        (exec (load searchPage) [Event.input 0]).env.submissions ++ [⟨1, 500⟩] ++
          [⟨(exec (load searchPage) [Event.input 0]).env.nextId, 1000 + 500⟩] ∧
      ∀ u, (exec (load searchPage) ([Event.input 0] ++ [Event.expire 1] ++ [Event.input 1000] ++
          [Event.input u] ++ [Event.expire (exec (load searchPage) [Event.input 0]).env.nextId])).env.submissions =
        (exec (load searchPage) [Event.input 0]).env.submissions ++ [⟨1, 500⟩]) :=
  ⟨by decide, rearming_after_expiry searchPage [Event.input 0] ⟨1, 500⟩ (by decide) 1000⟩

end DebouncedSubmitter
